import Mathlib

/-!
Verification of the crop-windowing and batching core of `braindecode`
(`braindecode/datautil/iterators.py`), shallowly embedded in Lean.

Indices are modelled as `ℤ` (Python integers are unbounded and window starts
can be negative); lists of `(start, stop)` pairs mirror the Python lists of
2-tuples.
-/

set_option autoImplicit false

/-- Loop body of `_get_start_stop_blocks_for_trial` (iterators.py lines 181-190):

    i_window_stop = i_trial_start
    while i_window_stop < i_trial_stop:
        i_window_stop += n_preds_per_input
        i_adjusted_stop = min(i_window_stop, i_trial_stop)
        i_window_start = i_adjusted_stop - input_time_length
        start_stop_blocks.append((i_window_start, i_adjusted_stop))

The `while` loop is embedded with a fuel parameter; when
`n_preds_per_input ≥ 1` the loop runs at most `(i_trial_stop - cursor)` times,
so fuel `(i_trial_stop - cursor).toNat` is sufficient (proved below). -/
def window_loop_aux (i_trial_stop input_time_length n_preds_per_input : ℤ) :
    ℕ → ℤ → List (ℤ × ℤ)
  | 0, _ => []
  | fuel + 1, i_window_stop =>
    if i_window_stop < i_trial_stop then
      let i_window_stop' := i_window_stop + n_preds_per_input
      let i_adjusted_stop := min i_window_stop' i_trial_stop
      (i_adjusted_stop - input_time_length, i_adjusted_stop) ::
        window_loop_aux i_trial_stop input_time_length n_preds_per_input fuel i_window_stop'
    else []

/-- `_get_start_stop_blocks_for_trial` (iterators.py lines 161-190): compute the
start/stop input windows needed to predict one trial. -/
def get_start_stop_blocks_for_trial
    (i_trial_start i_trial_stop input_time_length n_preds_per_input : ℤ) :
    List (ℤ × ℤ) :=
  window_loop_aux i_trial_stop input_time_length n_preds_per_input
    (i_trial_stop - i_trial_start).toNat i_trial_start

/-- Number of loop iterations of the planner: `⌈L / p⌉` computed over `ℕ`
(`0` when `L ≤ 0`). -/
def num_windows (L p : ℤ) : ℕ := (L.toNat + p.toNat - 1) / p.toNat

/-- Ceiling-division step: for `a ≥ 1`, `⌈a/q⌉ = ⌈(a-q)/q⌉ + 1`. -/
theorem nat_ceil_step (a q : ℕ) (hq : 1 ≤ q) (ha : 1 ≤ a) :
    (a + q - 1) / q = (a - q + q - 1) / q + 1 := by
  have h1 : a + q - 1 = (a - 1) + q := by omega
  rw [h1, Nat.add_div_right _ (by omega)]
  rcases le_or_lt a q with hle | hlt
  · have h2 : a - q + q - 1 = q - 1 := by omega
    have h3 : (a - 1) / q = 0 := Nat.div_eq_of_lt (by omega)
    have h4 : (q - 1) / q = 0 := Nat.div_eq_of_lt (by omega)
    rw [h2, h3, h4]
  · have h2 : a - q + q - 1 = (a - 1 - q) + q := by omega
    have h3 : a - 1 = (a - 1 - q) + q := by omega
    have h4 : (a - 1) / q = (a - 1 - q) / q + 1 := by
      conv_lhs => rw [h3]
      rw [Nat.add_div_right _ (by omega)]
    rw [h2, Nat.add_div_right _ (by omega), h4]

theorem num_windows_step (L p : ℤ) (hp : 1 ≤ p) (hL : 1 ≤ L) :
    num_windows L p = num_windows (L - p) p + 1 := by
  unfold num_windows
  have h2 : (L - p).toNat = L.toNat - p.toNat := by omega
  rw [h2]
  exact nat_ceil_step L.toNat p.toNat (by omega) (by omega)

theorem num_windows_eq_zero (L p : ℤ) (hp : 1 ≤ p) (hL : L ≤ 0) :
    num_windows L p = 0 := by
  unfold num_windows
  have h1 : L.toNat = 0 := by omega
  rw [h1]
  exact Nat.div_eq_of_lt (by omega)

theorem num_windows_pos (L p : ℤ) (hp : 1 ≤ p) (hL : 1 ≤ L) :
    1 ≤ num_windows L p := by
  rw [num_windows_step L p hp hL]
  omega

/-- Closed form of the planner loop: with sufficient fuel and `p ≥ 1`, the loop
starting at cursor `c` emits, for `k = 0, 1, ...`, the windows whose stop is
`min (c + (k+1)*p) e`, for `⌈(e-c)/p⌉` many steps. -/
theorem window_loop_aux_closed (e w p : ℤ) (hp : 1 ≤ p) :
    ∀ (fuel : ℕ) (c : ℤ), (e - c).toNat ≤ fuel →
      window_loop_aux e w p fuel c =
        (List.range (num_windows (e - c) p)).map
          (fun (k : ℕ) => (min (c + ((k : ℤ) + 1) * p) e - w, min (c + ((k : ℤ) + 1) * p) e)) := by
  intro fuel
  induction fuel with
  | zero =>
    intro c hc
    have he : e - c ≤ 0 := by omega
    rw [num_windows_eq_zero _ _ hp he]
    rfl
  | succ fuel ih =>
    intro c hc
    by_cases hce : c < e
    · have hstep : window_loop_aux e w p (fuel + 1) c =
          (min (c + p) e - w, min (c + p) e) :: window_loop_aux e w p fuel (c + p) := by
        simp only [window_loop_aux, if_pos hce]
      rw [hstep, ih (c + p) (by omega)]
      have hL : 1 ≤ e - c := by omega
      have hnw : num_windows (e - c) p = num_windows (e - c - p) p + 1 :=
        num_windows_step (e - c) p hp hL
      have harg : e - (c + p) = e - c - p := by ring
      rw [harg, hnw, List.range_succ_eq_map, List.map_cons, List.map_map]
      congr 1
      · norm_num
      · apply List.map_congr_left
        intro k _
        simp only [Function.comp_apply, Nat.cast_succ]
        have harg2 : c + ((k : ℤ) + 1 + 1) * p = c + p + ((k : ℤ) + 1) * p := by ring
        rw [harg2]
    · have he : e - c ≤ 0 := by omega
      rw [num_windows_eq_zero _ _ hp he]
      simp only [window_loop_aux, if_neg hce, List.range_zero, List.map_nil]

/-- Closed form of `_get_start_stop_blocks_for_trial` for `p ≥ 1`. -/
theorem get_start_stop_blocks_closed (s e w p : ℤ) (hp : 1 ≤ p) :
    get_start_stop_blocks_for_trial s e w p =
      (List.range (num_windows (e - s) p)).map
        (fun (k : ℕ) => (min (s + ((k : ℤ) + 1) * p) e - w, min (s + ((k : ℤ) + 1) * p) e)) :=
  window_loop_aux_closed e w p hp _ s le_rfl

/-- Decomposition of the trial length: `e - s = K*p + r + 1` with `0 ≤ r < p`,
and the planner emits `K + 1` windows. -/
theorem num_windows_decomp (s e p : ℤ) (hp : 1 ≤ p) (hse : s < e) :
    ∃ K r : ℕ, num_windows (e - s) p = K + 1 ∧
      e - s = (K : ℤ) * p + (r : ℤ) + 1 ∧ (r : ℤ) < p := by
  set a := (e - s).toNat with ha
  set q := p.toNat with hq
  have hq1 : 1 ≤ q := by omega
  have ha1 : 1 ≤ a := by omega
  refine ⟨(a - 1) / q, (a - 1) % q, ?_, ?_, ?_⟩
  · unfold num_windows
    rw [← ha, ← hq]
    have h1 : a + q - 1 = (a - 1) + q := by omega
    rw [h1, Nat.add_div_right _ (by omega)]
  · set K := (a - 1) / q with hK
    set r := (a - 1) % q with hr0
    have hdm : q * K + r = a - 1 := Nat.div_add_mod (a - 1) q
    have hcast : ((q : ℤ)) * (K : ℤ) + (r : ℤ) = ((a - 1 : ℕ) : ℤ) := by
      exact_mod_cast congrArg (fun n : ℕ => (n : ℤ)) hdm
    have hqp : (q : ℤ) = p := by omega
    have haes : ((a : ℕ) : ℤ) = e - s := by omega
    have ha1' : ((a - 1 : ℕ) : ℤ) = (a : ℤ) - 1 := by omega
    have hqK : (q : ℤ) * (K : ℤ) = (K : ℤ) * p := by rw [hqp]; ring
    linarith [hcast, hqK, haes, ha1']
  · have := Nat.mod_lt (a - 1) (show 0 < q by omega)
    omega

/-- Planner output length is `num_windows`. -/
theorem blocks_length (s e w p : ℤ) (hp : 1 ≤ p) :
    (get_start_stop_blocks_for_trial s e w p).length = num_windows (e - s) p := by
  rw [get_start_stop_blocks_closed s e w p hp, List.length_map, List.length_range]

/-- Element access in the planner output. -/
theorem blocks_get? (s e w p : ℤ) (hp : 1 ≤ p) (k : ℕ) (hk : k < num_windows (e - s) p) :
    (get_start_stop_blocks_for_trial s e w p).get? k =
      some (min (s + ((k : ℤ) + 1) * p) e - w, min (s + ((k : ℤ) + 1) * p) e) := by
  rw [get_start_stop_blocks_closed s e w p hp, List.get?_map, List.get?_range hk]
  rfl

/-- First window of the planner output. -/
theorem blocks_head? (s e w p : ℤ) (hp : 1 ≤ p) (hse : s < e) :
    (get_start_stop_blocks_for_trial s e w p).head? =
      some (min (s + p) e - w, min (s + p) e) := by
  obtain ⟨K, r, hm, hdec, hr⟩ := num_windows_decomp s e p hp hse
  rw [get_start_stop_blocks_closed s e w p hp, hm, List.range_succ_eq_map, List.map_cons]
  simp

/-- Last window of the planner output: its stop is exactly `e`. -/
theorem blocks_getLast? (s e w p : ℤ) (hp : 1 ≤ p) (hse : s < e) :
    (get_start_stop_blocks_for_trial s e w p).getLast? = some (e - w, e) := by
  obtain ⟨K, r, hm, hdec, hr⟩ := num_windows_decomp s e p hp hse
  rw [get_start_stop_blocks_closed s e w p hp, hm, List.range_succ, List.map_append]
  simp only [List.map_cons, List.map_nil]
  rw [List.getLast?_concat]
  have hlast : min (s + ((K : ℤ) + 1) * p) e = e := by
    have h1 : ((K : ℤ) + 1) * p = (K : ℤ) * p + p := by ring
    have h2 : e ≤ s + ((K : ℤ) + 1) * p := by omega
    exact min_eq_right h2
  rw [hlast]

/-- For `k < K` (any non-final window), the `min` clip is inactive and the stop
is strictly below `e`. -/
theorem win_stop_lt (s e p : ℤ) (K r k : ℕ) (hp : 1 ≤ p)
    (hdec : e - s = (K : ℤ) * p + (r : ℤ) + 1) (hk : k < K) :
    min (s + ((k : ℤ) + 1) * p) e = s + ((k : ℤ) + 1) * p ∧ s + ((k : ℤ) + 1) * p < e := by
  have hkK : ((k : ℤ) + 1) ≤ (K : ℤ) := by omega
  have hmul : ((k : ℤ) + 1) * p ≤ (K : ℤ) * p :=
    mul_le_mul_of_nonneg_right hkK (by omega)
  have hlt : s + ((k : ℤ) + 1) * p < e := by omega
  exact ⟨min_eq_left (le_of_lt hlt), hlt⟩

/-- Counting `k < n` whose predicted interval `[b + k*p, b + (k+1)*p)` contains
`x`: the intervals tile `[b, b + n*p)`, so the count is `1` inside and `0`
outside. -/
theorem countP_tile (b p x : ℤ) (hp : 1 ≤ p) :
    ∀ n : ℕ, (List.range n).countP
        (fun (k : ℕ) => decide (b + (k : ℤ) * p ≤ x ∧ x < b + ((k : ℤ) + 1) * p)) =
      if b ≤ x ∧ x < b + (n : ℤ) * p then 1 else 0 := by
  intro n
  induction n with
  | zero =>
    simp only [List.range_zero, List.countP_nil, Nat.cast_zero, zero_mul, add_zero]
    rw [if_neg]
    rintro ⟨h1, h2⟩
    omega
  | succ n ih =>
    rw [List.range_succ, List.countP_append, ih]
    have hsplit : ((n : ℤ) + 1) * p = (n : ℤ) * p + p := by ring
    have hnp : (0 : ℤ) ≤ (n : ℤ) * p := mul_nonneg (by positivity) (by omega)
    have hcast : (((n + 1 : ℕ)) : ℤ) = (n : ℤ) + 1 := by push_cast; ring
    by_cases hx1 : x < b + (n : ℤ) * p
    · have hlast : ¬(b + (n : ℤ) * p ≤ x ∧ x < b + ((n : ℤ) + 1) * p) := by
        rintro ⟨h1, _⟩; omega
      have hiff : (b ≤ x ∧ x < b + ((n + 1 : ℕ) : ℤ) * p) ↔ (b ≤ x ∧ x < b + (n : ℤ) * p) := by
        rw [hcast, hsplit]
        constructor
        · rintro ⟨h1, _⟩; exact ⟨h1, hx1⟩
        · rintro ⟨h1, h2⟩; exact ⟨h1, by omega⟩
      simp only [List.countP_cons, List.countP_nil, decide_eq_true_eq, hlast,
        if_false, Nat.zero_add]
      rw [if_congr hiff rfl rfl]
      simp [hlast]
    · have hold : (if b ≤ x ∧ x < b + (n : ℤ) * p then 1 else 0) = 0 := by
        simp only [ite_eq_right_iff]
        rintro ⟨_, h2⟩; omega
      have hb : b ≤ x := by omega
      have hiff : (b ≤ x ∧ x < b + ((n + 1 : ℕ) : ℤ) * p) ↔
          (b + (n : ℤ) * p ≤ x ∧ x < b + ((n : ℤ) + 1) * p) := by
        rw [hcast, hsplit]
        constructor
        · rintro ⟨_, h2⟩; exact ⟨by omega, by omega⟩
        · rintro ⟨_, h2⟩; exact ⟨hb, by omega⟩
      rw [hold, if_congr hiff rfl rfl]
      simp [List.countP_cons]

/-- Master count: the number of emitted windows whose predicted range
`[stop - p, stop)` contains `x` is one indicator for the `K` leading
(unclipped) windows tiling `[s, s + K*p)` plus one indicator for the final
window predicting `[e - p, e)`. -/
theorem countP_blocks (s e w p x : ℤ) (K r : ℕ) (hp : 1 ≤ p)
    (hm : num_windows (e - s) p = K + 1)
    (hdec : e - s = (K : ℤ) * p + (r : ℤ) + 1) (hr : (r : ℤ) < p) :
    (get_start_stop_blocks_for_trial s e w p).countP
        (fun b => decide (b.2 - p ≤ x ∧ x < b.2)) =
      (if s ≤ x ∧ x < s + (K : ℤ) * p then 1 else 0) +
      (if e - p ≤ x ∧ x < e then 1 else 0) := by
  rw [get_start_stop_blocks_closed s e w p hp, List.countP_map, hm, List.range_succ,
    List.countP_append]
  have h1 : (List.range K).countP
      ((fun b : ℤ × ℤ => decide (b.2 - p ≤ x ∧ x < b.2)) ∘
        (fun (k : ℕ) => (min (s + ((k : ℤ) + 1) * p) e - w, min (s + ((k : ℤ) + 1) * p) e))) =
      if s ≤ x ∧ x < s + (K : ℤ) * p then 1 else 0 := by
    have hcong : ∀ k ∈ List.range K,
        (((fun b : ℤ × ℤ => decide (b.2 - p ≤ x ∧ x < b.2)) ∘
          (fun (k : ℕ) => (min (s + ((k : ℤ) + 1) * p) e - w, min (s + ((k : ℤ) + 1) * p) e))) k
            = true) ↔
        ((fun (k : ℕ) => decide (s + (k : ℤ) * p ≤ x ∧ x < s + ((k : ℤ) + 1) * p)) k = true) := by
      intro k hk
      have hmin := (win_stop_lt s e p K r k hp hdec (List.mem_range.mp hk)).1
      simp only [Function.comp_apply, hmin]
      have harith : s + ((k : ℤ) + 1) * p - p = s + (k : ℤ) * p := by ring
      rw [harith]
    rw [List.countP_congr hcong]
    exact countP_tile s p x hp K
  have h2 : ([K] : List ℕ).countP
      ((fun b : ℤ × ℤ => decide (b.2 - p ≤ x ∧ x < b.2)) ∘
        (fun (k : ℕ) => (min (s + ((k : ℤ) + 1) * p) e - w, min (s + ((k : ℤ) + 1) * p) e))) =
      if e - p ≤ x ∧ x < e then 1 else 0 := by
    have hK : min (s + ((K : ℤ) + 1) * p) e = e := by
      apply min_eq_right
      have hx : ((K : ℤ) + 1) * p = (K : ℤ) * p + p := by ring
      omega
    simp only [List.countP_cons, List.countP_nil, Function.comp_apply, hK,
      decide_eq_true_eq, Nat.zero_add]
  rw [h1, h2]

/-- Every window emitted by the loop satisfies `stop - start = w` and
`stop ≤ e` (direct induction on the loop). -/
theorem window_loop_aux_shape (e w p : ℤ) :
    ∀ (fuel : ℕ) (c : ℤ), ∀ b ∈ window_loop_aux e w p fuel c,
      b.2 - b.1 = w ∧ b.2 ≤ e := by
  intro fuel
  induction fuel with
  | zero => intro c b hb; cases hb
  | succ fuel ih =>
    intro c b hb
    by_cases hce : c < e
    · simp only [window_loop_aux, if_pos hce, List.mem_cons] at hb
      rcases hb with hb | hb
      · subst hb
        refine ⟨by ring, min_le_right _ _⟩
      · exact ih (c + p) b hb
    · simp only [window_loop_aux, if_neg hce] at hb
      cases hb

/-- Strict monotonicity of window stops under the length decomposition. -/
theorem win_stop_strict_mono (s e p : ℤ) (K r : ℕ) (hp : 1 ≤ p)
    (hdec : e - s = (K : ℤ) * p + (r : ℤ) + 1) (hr : (r : ℤ) < p) :
    ∀ i j : ℕ, i < j → j < K + 1 →
      min (s + ((i : ℤ) + 1) * p) e < min (s + ((j : ℤ) + 1) * p) e := by
  intro i j hij hj
  rcases Nat.lt_or_ge j K with hjK | hjK
  · obtain ⟨hmi, hlti⟩ := win_stop_lt s e p K r i hp hdec (by omega)
    obtain ⟨hmj, _⟩ := win_stop_lt s e p K r j hp hdec hjK
    rw [hmi, hmj]
    have hij' : (i : ℤ) + 1 < (j : ℤ) + 1 := by omega
    have := mul_lt_mul_of_pos_right hij' (show (0 : ℤ) < p by omega)
    omega
  · have hjK' : j = K := by omega
    obtain ⟨hmi, hlti⟩ := win_stop_lt s e p K r i hp hdec (by omega)
    have hK : min (s + ((j : ℤ) + 1) * p) e = e := by
      apply min_eq_right
      have hx : ((j : ℤ) + 1) * p = (K : ℤ) * p + p := by rw [hjK']; ring
      omega
    rw [hmi, hK]
    exact hlti

/-- Claim C8: for every valid planning call (`trial_stop > trial_start`,
`input_window_length ≥ n_preds_per_input ≥ 1`), every emitted window
`(start, stop)` satisfies `stop - start = input_window_length` and
`stop ≤ trial_stop`. -/
theorem c8_window_shape (s e w p : ℤ) (hp : 1 ≤ p) (hpw : p ≤ w) (hse : s < e) :
    ∀ b ∈ get_start_stop_blocks_for_trial s e w p, b.2 - b.1 = w ∧ b.2 ≤ e :=
  fun b hb => window_loop_aux_shape e w p _ s b hb

theorem c8_window_shape_witness :
    (1 : ℤ) ≤ 2 ∧ (2 : ℤ) ≤ 3 ∧ (0 : ℤ) < 7 ∧
      ∀ b ∈ get_start_stop_blocks_for_trial 0 7 3 2, b.2 - b.1 = 3 ∧ b.2 ≤ 7 :=
  ⟨by norm_num, by norm_num, by norm_num,
    c8_window_shape 0 7 3 2 (by norm_num) (by norm_num) (by norm_num)⟩

/-- Claim C9: for `trial_stop > trial_start` and `n_preds_per_input ≥ 1` the
planning loop terminates (its result is fuel-independent once the fuel reaches
the bound used in the embedding), the final emitted window's stop is exactly
`trial_stop`, and every earlier window's stop is strictly below `trial_stop`
(the loop stops exactly when the clipped stop reaches `trial_stop`). -/
theorem c9_termination (s e w p : ℤ) (hp : 1 ≤ p) (hse : s < e) :
    (∀ fuel : ℕ, (e - s).toNat ≤ fuel →
        window_loop_aux e w p fuel s = get_start_stop_blocks_for_trial s e w p) ∧
      (get_start_stop_blocks_for_trial s e w p).getLast? = some (e - w, e) ∧
      (∀ (k : ℕ) (b : ℤ × ℤ), (get_start_stop_blocks_for_trial s e w p).get? k = some b →
        k + 1 < (get_start_stop_blocks_for_trial s e w p).length → b.2 < e) := by
  obtain ⟨K, r, hm, hdec, hr⟩ := num_windows_decomp s e p hp hse
  refine ⟨?_, blocks_getLast? s e w p hp hse, ?_⟩
  · intro fuel hfuel
    rw [window_loop_aux_closed e w p hp fuel s hfuel,
      get_start_stop_blocks_closed s e w p hp]
  · intro k b hget hk
    rw [blocks_length s e w p hp, hm] at hk
    have hkK : k < K := by omega
    have hsome := blocks_get? s e w p hp k (by rw [hm]; omega)
    rw [hget] at hsome
    have hb : b = (min (s + ((k : ℤ) + 1) * p) e - w, min (s + ((k : ℤ) + 1) * p) e) :=
      Option.some.inj hsome
    obtain ⟨hmk, hltk⟩ := win_stop_lt s e p K r k hp hdec hkK
    rw [hb]
    simpa [hmk] using hltk

theorem c9_termination_witness :
    (1 : ℤ) ≤ 2 ∧ (0 : ℤ) < 7 ∧
      ((∀ fuel : ℕ, ((7 : ℤ) - 0).toNat ≤ fuel →
          window_loop_aux 7 3 2 fuel 0 = get_start_stop_blocks_for_trial 0 7 3 2) ∧
        (get_start_stop_blocks_for_trial 0 7 3 2).getLast? = some (7 - 3, 7) ∧
        (∀ (k : ℕ) (b : ℤ × ℤ), (get_start_stop_blocks_for_trial 0 7 3 2).get? k = some b →
          k + 1 < (get_start_stop_blocks_for_trial 0 7 3 2).length → b.2 < 7)) :=
  ⟨by norm_num, by norm_num, c9_termination 0 7 3 2 (by norm_num) (by norm_num)⟩

/-- Claim C10: for `trial_stop > trial_start` and `n_preds_per_input ≥ 1` the
planner emits exactly `⌈(trial_stop - trial_start) / n_preds_per_input⌉`
windows, and their stops are strictly increasing. -/
theorem c10_window_count (s e w p : ℤ) (hp : 1 ≤ p) (hse : s < e) :
    (get_start_stop_blocks_for_trial s e w p).length
        = ((e - s).toNat + p.toNat - 1) / p.toNat ∧
      (get_start_stop_blocks_for_trial s e w p).Pairwise (fun b1 b2 => b1.2 < b2.2) := by
  obtain ⟨K, r, hm, hdec, hr⟩ := num_windows_decomp s e p hp hse
  constructor
  · rw [blocks_length s e w p hp]
    rfl
  · rw [get_start_stop_blocks_closed s e w p hp, List.pairwise_map, hm]
    apply List.Pairwise.imp_of_mem ?_ (List.pairwise_lt_range (K + 1))
    intro a b ha hb hab
    exact win_stop_strict_mono s e p K r hp hdec hr a b hab (List.mem_range.mp hb)

theorem c10_window_count_witness :
    (1 : ℤ) ≤ 2 ∧ (0 : ℤ) < 7 ∧
      ((get_start_stop_blocks_for_trial 0 7 3 2).length
          = (((7 : ℤ) - 0).toNat + (2 : ℤ).toNat - 1) / (2 : ℤ).toNat ∧
        (get_start_stop_blocks_for_trial 0 7 3 2).Pairwise (fun b1 b2 => b1.2 < b2.2)) :=
  ⟨by norm_num, by norm_num, c10_window_count 0 7 3 2 (by norm_num) (by norm_num)⟩

/-- Claim C2 counterexample: at `trial_start = 0`, `trial_stop = 1`,
`input_window_length = n_preds_per_input = 2` (a valid call per the claim's
hypotheses), the single emitted window is `(-1, 1)`, whose first predicted
sample `1 - 2 = -1` differs from `trial_start = 0`. -/
theorem c2_counterexample :
    (get_start_stop_blocks_for_trial 0 1 2 2).head? = some (-1, 1) ∧
      ((1 : ℤ) - 2 ≠ 0) := by
  constructor
  · decide
  · decide

/-- Claim C2 (amended): for every valid planning call, the first window's start
equals `trial_stop - input_window_length` only when
`trial_stop - trial_start ≤ n_preds_per_input`; the first window's first
predicted sample equals `trial_start` whenever
`trial_stop - trial_start ≥ n_preds_per_input`; and the last window's stop
equals `trial_stop`. -/
theorem c2_boundary_anchoring (s e w p : ℤ) (hp : 1 ≤ p) (hpw : p ≤ w) (hse : s < e) :
    ∃ b0 bl : ℤ × ℤ,
      (get_start_stop_blocks_for_trial s e w p).head? = some b0 ∧
      (get_start_stop_blocks_for_trial s e w p).getLast? = some bl ∧
      (b0.1 = e - w → e - s ≤ p) ∧
      (p ≤ e - s → b0.2 - p = s) ∧
      bl.2 = e := by
  refine ⟨(min (s + p) e - w, min (s + p) e), (e - w, e),
    blocks_head? s e w p hp hse, blocks_getLast? s e w p hp hse, ?_, ?_, rfl⟩
  · intro h
    rcases le_or_lt e (s + p) with h1 | h1
    · omega
    · rw [min_eq_left (le_of_lt h1)] at h
      omega
  · intro hL
    rw [min_eq_left (by omega)]
    ring

theorem c2_boundary_anchoring_witness :
    (1 : ℤ) ≤ 2 ∧ (2 : ℤ) ≤ 3 ∧ (0 : ℤ) < 7 ∧
      (∃ b0 bl : ℤ × ℤ,
        (get_start_stop_blocks_for_trial 0 7 3 2).head? = some b0 ∧
        (get_start_stop_blocks_for_trial 0 7 3 2).getLast? = some bl ∧
        (b0.1 = 7 - 3 → (7 : ℤ) - 0 ≤ 2) ∧
        ((2 : ℤ) ≤ 7 - 0 → b0.2 - 2 = 0) ∧
        bl.2 = 7) :=
  ⟨by norm_num, by norm_num, by norm_num,
    c2_boundary_anchoring 0 7 3 2 (by norm_num) (by norm_num) (by norm_num)⟩

/-- Claim C1 counterexample: at `trial_start = 5`, `trial_stop = 7`,
`input_window_length = n_preds_per_input = 4` (allowed by the claim's
hypotheses, since `7 - 5 ≥ 1` and `4 ≥ 4 ≥ 1`), the single emitted window is
`(3, 7)` and its predicted range `[3, 7)` contains `3 ∉ range(5, 7)`, so the
union of predicted ranges is not `range(trial_start, trial_stop)`. -/
theorem c1_counterexample :
    ¬ (∀ x : ℤ, (∃ b ∈ get_start_stop_blocks_for_trial 5 7 4 4,
        b.2 - 4 ≤ x ∧ x < b.2) ↔ (5 ≤ x ∧ x < 7)) := by
  intro h
  have h3 := (h 3).mp ⟨(3, 7), by decide, by decide⟩
  exact absurd h3 (by decide)

/-- Claim C1 (amended): for every trial with
`trial_stop - trial_start ≥ n_preds_per_input` and
`input_window_length ≥ n_preds_per_input ≥ 1`, the union of the predicted
sub-ranges `range(stop - n_preds_per_input, stop)` over all emitted windows
equals exactly the set `range(trial_start, trial_stop)`. -/
theorem c1_coverage (s e w p : ℤ) (hp : 1 ≤ p) (hpw : p ≤ w) (hL : p ≤ e - s) :
    ∀ x : ℤ, (∃ b ∈ get_start_stop_blocks_for_trial s e w p,
        b.2 - p ≤ x ∧ x < b.2) ↔ (s ≤ x ∧ x < e) := by
  have hse : s < e := by omega
  obtain ⟨K, r, hm, hdec, hr⟩ := num_windows_decomp s e p hp hse
  intro x
  constructor
  · rintro ⟨b, hb, hx1, hx2⟩
    rw [get_start_stop_blocks_closed s e w p hp] at hb
    obtain ⟨k, hk, hbk⟩ := List.mem_map.mp hb
    have hb2 : b.2 = min (s + ((k : ℤ) + 1) * p) e := by rw [← hbk]
    have hkp : (0 : ℤ) ≤ (k : ℤ) * p :=
      mul_nonneg (Int.natCast_nonneg k) (by omega)
    have h1 : s + p ≤ s + ((k : ℤ) + 1) * p := by nlinarith
    have h3 : s + p ≤ min (s + ((k : ℤ) + 1) * p) e := le_min h1 (by omega)
    have h4 : min (s + ((k : ℤ) + 1) * p) e ≤ e := min_le_right _ _
    omega
  · rintro ⟨hx1, hx2⟩
    have hcount := countP_blocks s e w p x K r hp hm hdec hr
    have hpos : 0 < (get_start_stop_blocks_for_trial s e w p).countP
        (fun b => decide (b.2 - p ≤ x ∧ x < b.2)) := by
      rw [hcount]
      by_cases hxe : e - p ≤ x
      · have h2 : (if e - p ≤ x ∧ x < e then (1 : ℕ) else 0) = 1 := if_pos ⟨hxe, hx2⟩
        rw [h2]
        omega
      · have hxK : x < s + (K : ℤ) * p := by linarith
        have h1 : (if s ≤ x ∧ x < s + (K : ℤ) * p then (1 : ℕ) else 0) = 1 :=
          if_pos ⟨hx1, hxK⟩
        rw [h1]
        omega
    obtain ⟨b, hb, hbx⟩ := List.countP_pos.mp hpos
    exact ⟨b, hb, of_decide_eq_true hbx⟩

theorem c1_coverage_witness :
    (1 : ℤ) ≤ 2 ∧ (2 : ℤ) ≤ 3 ∧ (2 : ℤ) ≤ 9 - 0 ∧
      (∀ x : ℤ, (∃ b ∈ get_start_stop_blocks_for_trial 0 9 3 2,
          b.2 - 2 ≤ x ∧ x < b.2) ↔ (0 ≤ x ∧ x < 9)) :=
  ⟨by norm_num, by norm_num, by norm_num,
    c1_coverage 0 9 3 2 (by norm_num) (by norm_num) (by norm_num)⟩

/-- Divisibility of the trial length by `p` in terms of the remainder `r`. -/
theorem dvd_iff_r (s e p : ℤ) (K r : ℕ) (hp : 1 ≤ p)
    (hdec : e - s = (K : ℤ) * p + (r : ℤ) + 1) (hr : (r : ℤ) < p) :
    p ∣ (e - s) ↔ (r : ℤ) + 1 = p := by
  constructor
  · intro hd
    have h0 : (r : ℤ) + 1 = (e - s) - (K : ℤ) * p := by linarith
    have h1 : p ∣ ((r : ℤ) + 1) := by
      rw [h0]
      exact dvd_sub hd (dvd_mul_left p (K : ℤ))
    have h2 : (0 : ℤ) < (r : ℤ) + 1 := by positivity
    have h3 := Int.le_of_dvd h2 h1
    omega
  · intro h
    have h2 : ((K : ℤ) + 1) * p = (K : ℤ) * p + p := by ring
    have h1 : e - s = ((K : ℤ) + 1) * p := by linarith
    rw [h1]
    exact dvd_mul_left p ((K : ℤ) + 1)

/-- Claim C3 counterexample: at `trial_start = 0`, `trial_stop = 4`,
`input_window_length = n_preds_per_input = 2` (a valid call, with `2 ∣ 4` so
the claim's non-divisibility exception does not apply), the sample
`0 ∈ range(0, 4)` is the final predicted sample (`stop - 1`) of zero emitted
windows — not of exactly one, as the claim states. -/
theorem c3_counterexample :
    ((2 : ℤ) ∣ (4 - 0)) ∧
      (get_start_stop_blocks_for_trial 0 4 2 2).countP
        (fun b => decide (b.2 - 1 = 0)) = 0 := by
  constructor
  · exact ⟨2, by norm_num⟩
  · decide

/-- Claim C3 (amended): for every valid planning call, every sample in
`[trial_start, trial_stop)` lies in the predicted range (trailing
`n_preds_per_input` samples) of exactly one emitted window, except — when
`n_preds_per_input` does not divide the trial length — samples in the window
`[trial_stop - n_preds_per_input, trial_stop - 2]` (at most
`n_preds_per_input - 1` samples at the boundary preceding the last window),
which lie in exactly two; in that case (provided the trial length is at least
`n_preds_per_input`) the last window's predicted range overlaps the
second-to-last window's; predicted ranges of all other pairs of windows are
disjoint. -/
theorem c3_overlap (s e w p : ℤ) (hp : 1 ≤ p) (hpw : p ≤ w) (hse : s < e) :
    (∀ x : ℤ, s ≤ x → x < e →
      ((get_start_stop_blocks_for_trial s e w p).countP
          (fun b => decide (b.2 - p ≤ x ∧ x < b.2)) = 1 ∨
        ((get_start_stop_blocks_for_trial s e w p).countP
            (fun b => decide (b.2 - p ≤ x ∧ x < b.2)) = 2 ∧
          ¬ p ∣ (e - s) ∧ e - p ≤ x ∧ x ≤ e - 2))) ∧
    (¬ p ∣ (e - s) → p ≤ e - s →
      2 ≤ (get_start_stop_blocks_for_trial s e w p).length ∧
      ∃ (x : ℤ) (b2 bl : ℤ × ℤ),
        (get_start_stop_blocks_for_trial s e w p).get?
            ((get_start_stop_blocks_for_trial s e w p).length - 2) = some b2 ∧
        (get_start_stop_blocks_for_trial s e w p).getLast? = some bl ∧
        b2.2 - p ≤ x ∧ x < b2.2 ∧ bl.2 - p ≤ x ∧ x < bl.2) ∧
    (∀ (i j : ℕ) (bi bj : ℤ × ℤ) (x : ℤ), i < j →
      (get_start_stop_blocks_for_trial s e w p).get? i = some bi →
      (get_start_stop_blocks_for_trial s e w p).get? j = some bj →
      ¬ (i = (get_start_stop_blocks_for_trial s e w p).length - 2 ∧
          j = (get_start_stop_blocks_for_trial s e w p).length - 1) →
      ¬ (bi.2 - p ≤ x ∧ x < bi.2 ∧ bj.2 - p ≤ x ∧ x < bj.2)) := by
  obtain ⟨K, r, hm, hdec, hr⟩ := num_windows_decomp s e p hp hse
  have hlen : (get_start_stop_blocks_for_trial s e w p).length = K + 1 := by
    rw [blocks_length s e w p hp, hm]
  have hr0 : (0 : ℤ) ≤ (r : ℤ) := Int.natCast_nonneg r
  refine ⟨?_, ?_, ?_⟩
  · -- exact cover with a single controlled overlap region
    intro x hx1 hx2
    have hcount := countP_blocks s e w p x K r hp hm hdec hr
    by_cases hA : s ≤ x ∧ x < s + (K : ℤ) * p
    · by_cases hB : e - p ≤ x ∧ x < e
      · right
        rw [hcount, if_pos hA, if_pos hB]
        refine ⟨rfl, ?_, hB.1, ?_⟩
        · intro hd
          have hrp := (dvd_iff_r s e p K r hp hdec hr).mp hd
          have hep : e - p = s + (K : ℤ) * p := by linarith
          linarith [hA.2, hB.1]
        · have h1 : s + (K : ℤ) * p = e - (r : ℤ) - 1 := by linarith
          linarith [hA.2]
      · left
        rw [hcount, if_pos hA, if_neg hB]
    · by_cases hB : e - p ≤ x ∧ x < e
      · left
        rw [hcount, if_neg hA, if_pos hB]
      · exfalso
        have hxe : x < e - p := by
          by_contra hcon
          exact hB ⟨by omega, hx2⟩
        have hxK : x < s + (K : ℤ) * p := by linarith
        exact hA ⟨hx1, hxK⟩
  · -- when p does not divide the length (and the trial is long enough),
    -- the last two windows genuinely overlap
    intro hnd hLp
    have hrp : (r : ℤ) + 1 ≠ p := fun h => hnd ((dvd_iff_r s e p K r hp hdec hr).mpr h)
    have hrlt : (r : ℤ) + 1 < p := by omega
    have hK1 : 1 ≤ K := by
      rcases Nat.eq_zero_or_pos K with h0 | h1
      · exfalso
        rw [h0] at hdec
        norm_num at hdec
        omega
      · exact h1
    constructor
    · rw [hlen]
      omega
    · have hidx : (get_start_stop_blocks_for_trial s e w p).length - 2 = K - 1 := by
        rw [hlen]
        omega
      have hKK : K - 1 < num_windows (e - s) p := by
        rw [hm]
        omega
      have hb2 := blocks_get? s e w p hp (K - 1) hKK
      have hcast : ((K - 1 : ℕ) : ℤ) + 1 = (K : ℤ) := by omega
      have hmin : min (s + (((K - 1 : ℕ) : ℤ) + 1) * p) e = s + (K : ℤ) * p := by
        rw [hcast]
        apply min_eq_left
        linarith
      have hb2' : (get_start_stop_blocks_for_trial s e w p).get?
          ((get_start_stop_blocks_for_trial s e w p).length - 2)
            = some (s + (K : ℤ) * p - w, s + (K : ℤ) * p) := by
        rw [hidx, hb2, hmin]
      refine ⟨e - p, (s + (K : ℤ) * p - w, s + (K : ℤ) * p), (e - w, e),
        hb2', blocks_getLast? s e w p hp hse, ?_, ?_, ?_, ?_⟩
      · show s + (K : ℤ) * p - p ≤ e - p
        linarith
      · show e - p < s + (K : ℤ) * p
        linarith
      · show e - p ≤ e - p
        exact le_refl _
      · show e - p < e
        omega
  · -- all pairs of windows other than (last, second-to-last) have disjoint
    -- predicted ranges
    intro i j bi bj x hij hgi hgj hnot
    rw [hlen] at hnot
    obtain ⟨hjlt, -⟩ := List.get?_eq_some.mp hgj
    rw [hlen] at hjlt
    have hbi := blocks_get? s e w p hp i (by rw [hm]; omega)
    rw [hgi] at hbi
    have hbieq := Option.some.inj hbi
    have hbj := blocks_get? s e w p hp j (by rw [hm]; omega)
    rw [hgj] at hbj
    have hbjeq := Option.some.inj hbj
    rintro ⟨hxi1, hxi2, hxj1, hxj2⟩
    rcases Nat.lt_or_ge j K with hjK | hjK
    · obtain ⟨hmi, -⟩ := win_stop_lt s e p K r i hp hdec (by omega)
      obtain ⟨hmj, -⟩ := win_stop_lt s e p K r j hp hdec hjK
      have hbi2 : bi.2 = s + ((i : ℤ) + 1) * p := by rw [hbieq, hmi]
      have hbj2 : bj.2 = s + ((j : ℤ) + 1) * p := by rw [hbjeq, hmj]
      have hle : ((i : ℤ) + 1) * p ≤ (j : ℤ) * p :=
        mul_le_mul_of_nonneg_right (by omega) (by omega)
      have hjp : s + ((j : ℤ) + 1) * p - p = s + (j : ℤ) * p := by ring
      rw [hbi2] at hxi2
      rw [hbj2, hjp] at hxj1
      linarith
    · have hjK' : j = K := by omega
      have hiK : i ≠ K - 1 := fun hcon => hnot ⟨by omega, by omega⟩
      have hi2 : (i : ℤ) + 1 ≤ (K : ℤ) - 1 := by omega
      obtain ⟨hmi, -⟩ := win_stop_lt s e p K r i hp hdec (by omega)
      have hbi2 : bi.2 = s + ((i : ℤ) + 1) * p := by rw [hbieq, hmi]
      have hminK : min (s + ((j : ℤ) + 1) * p) e = e := by
        apply min_eq_right
        have h2 : ((j : ℤ) + 1) * p = (K : ℤ) * p + p := by
          rw [show (j : ℤ) = (K : ℤ) by omega]
          ring
        linarith
      have hbj2 : bj.2 = e := by rw [hbjeq, hminK]
      have hle : ((i : ℤ) + 1) * p ≤ ((K : ℤ) - 1) * p :=
        mul_le_mul_of_nonneg_right hi2 (by omega)
      have hKp : ((K : ℤ) - 1) * p = (K : ℤ) * p - p := by ring
      rw [hbi2] at hxi2
      rw [hbj2] at hxj1
      linarith

theorem c3_overlap_witness :
    (1 : ℤ) ≤ 3 ∧ (3 : ℤ) ≤ 3 ∧ (0 : ℤ) < 7 ∧
      ((∀ x : ℤ, 0 ≤ x → x < 7 →
        ((get_start_stop_blocks_for_trial 0 7 3 3).countP
            (fun b => decide (b.2 - 3 ≤ x ∧ x < b.2)) = 1 ∨
          ((get_start_stop_blocks_for_trial 0 7 3 3).countP
              (fun b => decide (b.2 - 3 ≤ x ∧ x < b.2)) = 2 ∧
            ¬ (3 : ℤ) ∣ (7 - 0) ∧ 7 - 3 ≤ x ∧ x ≤ 7 - 2))) ∧
      (¬ (3 : ℤ) ∣ (7 - 0) → (3 : ℤ) ≤ 7 - 0 →
        2 ≤ (get_start_stop_blocks_for_trial 0 7 3 3).length ∧
        ∃ (x : ℤ) (b2 bl : ℤ × ℤ),
          (get_start_stop_blocks_for_trial 0 7 3 3).get?
              ((get_start_stop_blocks_for_trial 0 7 3 3).length - 2) = some b2 ∧
          (get_start_stop_blocks_for_trial 0 7 3 3).getLast? = some bl ∧
          b2.2 - 3 ≤ x ∧ x < b2.2 ∧ bl.2 - 3 ≤ x ∧ x < bl.2) ∧
      (∀ (i j : ℕ) (bi bj : ℤ × ℤ) (x : ℤ), i < j →
        (get_start_stop_blocks_for_trial 0 7 3 3).get? i = some bi →
        (get_start_stop_blocks_for_trial 0 7 3 3).get? j = some bj →
        ¬ (i = (get_start_stop_blocks_for_trial 0 7 3 3).length - 2 ∧
            j = (get_start_stop_blocks_for_trial 0 7 3 3).length - 1) →
        ¬ (bi.2 - 3 ≤ x ∧ x < bi.2 ∧ bj.2 - 3 ≤ x ∧ x < bj.2))) :=
  ⟨by norm_num, by norm_num, by norm_num,
    c3_overlap 0 7 3 3 (by norm_num) (by norm_num) (by norm_num)⟩

/-- Errors raised inside `get_batches` and its helpers. `input_too_small`
carries the data of the assertion message at iterators.py lines 63-68
(input length, trial index, input time length); `coverage_mismatch` is the
assertion at lines 152-155; `block_bounds_assert` the assertions at lines
77-78; `unpack_error` the ValueError raised when a row of the block array
cannot be unpacked into `(i_trial, start, stop)`. -/
inductive BDError where
  | input_too_small (input_len i_trial input_time_length : ℕ)
  | coverage_mismatch (i_trial : ℕ)
  | block_bounds_assert (i_trial : ℕ)
  | unpack_error
deriving DecidableEq

/-- A trial label: scalar, or one label per time step (iterators.py line 200
distinguishes these by `hasattr(y[i], "__len__")`). -/
inductive Label where
  | scalar (v : ℤ)
  | seq (vs : List ℤ)
deriving DecidableEq

/-- The dataset contract (spec §6): `X` an ordered sequence of 2-D arrays
(channels × time, modelled as lists of channel rows), `y` a parallel label
sequence. -/
structure Dataset where
  X : List (List (List ℤ))
  y : List Label
deriving DecidableEq

/-- `trial.shape[1]`: the time length of a 2-D (channels × time) array. -/
def shape1 (trial : List (List ℤ)) : ℕ :=
  match trial with
  | [] => 0
  | row :: _ => row.length

/-- Python `range(a, b)` as a list of integers. -/
def range_int (a b : ℤ) : List ℤ :=
  (List.range (b - a).toNat).map (fun k => a + (k : ℤ))

/-- Python slicing `l[a:b]` for `0 ≤ a ≤ b` (the only use in this code). -/
def slice_int (l : List ℤ) (a b : ℤ) : List ℤ :=
  (l.drop a.toNat).take (b.toNat - a.toNat)

/-- `_compute_start_stop_block_inds` (iterators.py lines 109-158), walking the
zipped `(i_trial_start, i_trial_stop)` pairs with the running trial index.
When `check_preds_smaller_trial_len` is set, the Python code asserts
`np.array_equal(range(start, stop), np.unique(np.concatenate(all_predicted)))`;
since `np.unique` returns the sorted distinct values and `range(start, stop)`
is sorted and distinct, that equality holds exactly when the two index sets
are equal, which is how it is modelled here. -/
def compute_start_stop_block_inds_aux (input_time_length n_preds_per_input : ℤ)
    (check_preds_smaller_trial_len : Bool) :
    List (ℤ × ℤ) → ℕ → Except BDError (List (List (ℤ × ℤ)))
  | [], _ => .ok []
  | (i_trial_start, i_trial_stop) :: rest, i_trial =>
    let start_stop_blocks := get_start_stop_blocks_for_trial
      i_trial_start i_trial_stop input_time_length n_preds_per_input
    if check_preds_smaller_trial_len ∧
        ((start_stop_blocks.map
            (fun b => range_int (b.2 - n_preds_per_input) b.2)).flatten.toFinset ≠
          (range_int i_trial_start i_trial_stop).toFinset) then
      .error (.coverage_mismatch i_trial)
    else
      match compute_start_stop_block_inds_aux input_time_length n_preds_per_input
          check_preds_smaller_trial_len rest (i_trial + 1) with
      | .error err => .error err
      | .ok blocks_rest => .ok (start_stop_blocks :: blocks_rest)

def compute_start_stop_block_inds (i_trial_starts i_trial_stops : List ℤ)
    (input_time_length n_preds_per_input : ℤ)
    (check_preds_smaller_trial_len : Bool) :
    Except BDError (List (List (ℤ × ℤ))) :=
  compute_start_stop_block_inds_aux input_time_length n_preds_per_input
    check_preds_smaller_trial_len (i_trial_starts.zip i_trial_stops) 0

/-- The input-length precondition loop of `get_batches` (iterators.py lines
60-68): the first trial whose time length is below `input_time_length` raises,
with the offending length and trial index. -/
def check_input_lens (input_time_length : ℕ) :
    List ℕ → ℕ → Option BDError
  | [], _ => none
  | input_len :: rest, i_trial =>
    if input_len < input_time_length then
      some (.input_too_small input_len i_trial input_time_length)
    else
      check_input_lens input_time_length rest (i_trial + 1)

/-- The per-trial boundary assertions of `get_batches` (iterators.py lines
76-78): `trial_blocks[0][0] == 0` and `trial_blocks[-1][1] == i_trial_stops[i]`
(indexing an empty block list would also raise, modelled by the same error). -/
def check_block_bounds : List (List (ℤ × ℤ) × ℤ) → ℕ → Option BDError
  | [], _ => none
  | (trial_blocks, i_trial_stop) :: rest, i_trial =>
    match trial_blocks.head?, trial_blocks.getLast? with
    | some b0, some bl =>
      if b0.1 ≠ 0 ∨ bl.2 ≠ i_trial_stop then some (.block_bounds_assert i_trial)
      else check_block_bounds rest (i_trial + 1)
    | _, _ => some (.block_bounds_assert i_trial)

/-- Modelled from the spec: the random generator (`numpy.random.RandomState`,
whose implementation is outside `src/`). Spec §3/§4.1: a deterministic
generator seeded at construction; drawing a permutation consumes generator
state; re-seeding reproduces the same sequence of draws. Modelled as the seed
tuple plus a draw counter. -/
structure RState where
  seed : ℕ × ℕ × ℕ
  counter : ℕ
deriving DecidableEq

def mk_random_state (seed : ℕ × ℕ × ℕ) : RState := ⟨seed, 0⟩

/-- Modelled from the spec: one permutation draw from the generator — a
deterministic permutation of `range n` depending on the seed and the draw
counter (a rotation is used; the spec requires only a seeded deterministic
permutation). -/
def rng_permutation (rng : RState) (n : ℕ) : List ℕ :=
  (List.range n).rotate (rng.seed.1 + rng.seed.2.1 + rng.seed.2.2 + rng.counter)

def rng_advance (rng : RState) : RState := ⟨rng.seed, rng.counter + 1⟩

/-- Contiguous chunks of size `batch_size` (final chunk smaller). Structural
fuel; `l.length` is always sufficient when `batch_size ≥ 1`. -/
def chunk_aux (batch_size : ℕ) : ℕ → List ℕ → List (List ℕ)
  | _, [] => []
  | 0, _ => []
  | fuel + 1, l => l.take batch_size :: chunk_aux batch_size fuel (l.drop batch_size)

/-- Modelled from the spec: `get_balanced_batches` (`braindecode.util`, not in
`src/`). Spec §4.1: produce `ceil(n_items / batch_size)` groups, each a
contiguous block of indices (after one optional permutation draw) of size
`batch_size` except a possibly smaller final group; `n_items = 0` gives zero
groups; the permutation draw consumes generator state. -/
def get_balanced_batches (n_items batch_size : ℕ) (rng : RState) (shuffle : Bool) :
    List (List ℕ) × RState :=
  let idx := if shuffle then rng_permutation rng n_items else List.range n_items
  let rng' := if shuffle then rng_advance rng else rng
  (chunk_aux batch_size idx.length idx, rng')

/-- One batch entry: the input slice `X[i_trial][:, start:stop]` plus its
label (scalar, or the slice `y[i_trial][stop - n_preds : stop]`). The Python
code stacks entries into `(batch_X, batch_y)` arrays and appends a trailing
singleton axis when `batch_X.ndim == 3`; that stacking is pure shape
bookkeeping and the list of entries carries the same data. -/
def Batch := List ((List (List ℤ)) × Label)
deriving DecidableEq

/-- `_create_batch_from_i_trial_start_stop_blocks` (iterators.py lines
193-210). Each row of the block array is unpacked as
`i_trial, start, stop`; a row of any other length raises (ValueError),
modelled as `unpack_error`. -/
def create_batch_from_i_trial_start_stop_blocks
    (X : List (List (List ℤ))) (y : List Label) (rows : List (List ℤ))
    (n_preds_per_input : ℤ) : Except BDError Batch :=
  rows.mapM (fun row =>
    match row with
    | [i_trial, start, stop] =>
      let xi := X.getD i_trial.toNat []
      let x_slice := xi.map (fun channel => slice_int channel start stop)
      match y.getD i_trial.toNat (Label.scalar 0) with
      | .scalar v => .ok (x_slice, Label.scalar v)
      | .seq vs => .ok (x_slice, Label.seq (slice_int vs (stop - n_preds_per_input) stop))
    | _ => .error .unpack_error)

/-- `_yield_block_batches` (iterators.py lines 84-106), consumed eagerly: the
flattened `(i_trial, start, stop)` rows are partitioned into batches and each
batch is materialised in order. `np.array` of an empty row list is 1-D, and
the `ndim == 1` branch (`arr[None, :]`, lines 92-93) turns it into a single
empty row — modelled by the `[[]]` case. -/
def yield_block_batches (X : List (List (List ℤ))) (y : List Label)
    (start_stop_blocks_per_trial : List (List (ℤ × ℤ)))
    (batch_size : ℕ) (n_preds_per_input : ℤ) (rng : RState) (shuffle : Bool) :
    Except BDError (List Batch) × RState :=
  let rows := (start_stop_blocks_per_trial.enum.map
    (fun it => it.2.map (fun b => [((it.1 : ℕ) : ℤ), b.1, b.2]))).flatten
  let arr := if rows = [] then [([] : List ℤ)] else rows
  let gb := get_balanced_batches arr.length batch_size rng shuffle
  (gb.1.mapM (fun i_blocks =>
      create_batch_from_i_trial_start_stop_blocks X y
        (i_blocks.map (fun idx => arr.getD idx [])) n_preds_per_input),
    gb.2)

/-- `CropsFromTrialsIterator` (iterators.py lines 7-51): configuration plus
the iterator-owned random generator. -/
structure CropsFromTrialsIterator where
  batch_size : ℕ
  input_time_length : ℕ
  n_preds_per_input : ℕ
  seed : ℕ × ℕ × ℕ
  rng : RState
deriving DecidableEq

/-- `__init__` (iterators.py lines 37-48): stores the configuration and seeds
the generator. -/
def mk_crops_from_trials_iterator (batch_size input_time_length n_preds_per_input : ℕ)
    (seed : ℕ × ℕ × ℕ) : CropsFromTrialsIterator :=
  ⟨batch_size, input_time_length, n_preds_per_input, seed, mk_random_state seed⟩

/-- `reset_rng` (iterators.py lines 50-51). -/
def reset_rng (it : CropsFromTrialsIterator) : CropsFromTrialsIterator :=
  { it with rng := mk_random_state it.seed }

/-- `get_batches` (iterators.py lines 53-82), with the generator it returns
consumed eagerly. Returns the batch sequence (or the first error raised) and
the iterator with its updated generator state. -/
def get_batches (it : CropsFromTrialsIterator) (dataset : Dataset) (shuffle : Bool) :
    Except BDError (List Batch) × CropsFromTrialsIterator :=
  let n_receptive_field : ℤ := (it.input_time_length : ℤ) - (it.n_preds_per_input : ℤ) + 1
  let i_trial_starts : List ℤ := List.replicate dataset.X.length (n_receptive_field - 1)
  let i_trial_stops : List ℤ := dataset.X.map (fun trial => (shape1 trial : ℤ))
  match check_input_lens it.input_time_length (dataset.X.map shape1) 0 with
  | some err => (.error err, it)
  | none =>
    match compute_start_stop_block_inds i_trial_starts i_trial_stops
        (it.input_time_length : ℤ) (it.n_preds_per_input : ℤ) true with
    | .error err => (.error err, it)
    | .ok start_stop_blocks_per_trial =>
      match check_block_bounds (start_stop_blocks_per_trial.zip i_trial_stops) 0 with
      | some err => (.error err, it)
      | none =>
        let res := yield_block_batches dataset.X dataset.y start_stop_blocks_per_trial
          it.batch_size (it.n_preds_per_input : ℤ) it.rng shuffle
        (res.1, { it with rng := res.2 })

theorem chunk_aux_join (batch_size : ℕ) (hb : 1 ≤ batch_size) :
    ∀ (fuel : ℕ) (l : List ℕ), l.length ≤ fuel →
      (chunk_aux batch_size fuel l).flatten = l := by
  intro fuel
  induction fuel with
  | zero =>
    intro l hl
    have : l = [] := List.length_eq_zero.mp (by omega)
    subst this
    rfl
  | succ fuel ih =>
    intro l hl
    cases l with
    | nil => rfl
    | cons a rest =>
      have hstep : chunk_aux batch_size (fuel + 1) (a :: rest) =
          (a :: rest).take batch_size ::
            chunk_aux batch_size fuel ((a :: rest).drop batch_size) := rfl
      rw [hstep, List.flatten_cons, ih _ (by rw [List.length_drop]; simp only [List.length_cons] at hl ⊢; omega), List.take_append_drop]

theorem chunk_aux_length_eq (batch_size : ℕ) (hb : 1 ≤ batch_size) :
    ∀ (fuel : ℕ) (l : List ℕ), l.length ≤ fuel →
      (chunk_aux batch_size fuel l).length = (l.length + batch_size - 1) / batch_size := by
  intro fuel
  induction fuel with
  | zero =>
    intro l hl
    have : l = [] := List.length_eq_zero.mp (by omega)
    subst this
    simp [chunk_aux]
    exact (Nat.div_eq_of_lt (by omega)).symm
  | succ fuel ih =>
    intro l hl
    cases l with
    | nil =>
      simp [chunk_aux]
      exact (Nat.div_eq_of_lt (by omega)).symm
    | cons a rest =>
      have hstep : chunk_aux batch_size (fuel + 1) (a :: rest) =
          (a :: rest).take batch_size ::
            chunk_aux batch_size fuel ((a :: rest).drop batch_size) := rfl
      rw [hstep, List.length_cons, ih _ (by rw [List.length_drop]; simp only [List.length_cons] at hl ⊢; omega)]
      rw [List.length_drop]
      exact (nat_ceil_step (a :: rest).length batch_size hb (by simp)).symm

theorem chunk_aux_sizes (batch_size : ℕ) (hb : 1 ≤ batch_size) :
    ∀ (fuel : ℕ) (l : List ℕ), l.length ≤ fuel →
      ∀ g ∈ chunk_aux batch_size fuel l, 1 ≤ g.length ∧ g.length ≤ batch_size := by
  intro fuel
  induction fuel with
  | zero =>
    intro l hl g hg
    have : l = [] := List.length_eq_zero.mp (by omega)
    subst this
    cases hg
  | succ fuel ih =>
    intro l hl g hg
    cases l with
    | nil => cases hg
    | cons a rest =>
      have hstep : chunk_aux batch_size (fuel + 1) (a :: rest) =
          (a :: rest).take batch_size ::
            chunk_aux batch_size fuel ((a :: rest).drop batch_size) := rfl
      rw [hstep] at hg
      rcases List.mem_cons.mp hg with hg | hg
      · subst hg
        rw [List.length_take]
        constructor
        · simp
          omega
        · exact min_le_left _ _
      · exact ih _ (by rw [List.length_drop]; simp only [List.length_cons] at hl ⊢; omega) g hg

theorem chunk_aux_eq_nil (batch_size fuel : ℕ) :
    chunk_aux batch_size fuel ([] : List ℕ) = [] := by
  cases fuel <;> rfl

theorem chunk_aux_dropLast_sizes (batch_size : ℕ) (hb : 1 ≤ batch_size) :
    ∀ (fuel : ℕ) (l : List ℕ), l.length ≤ fuel →
      ∀ g ∈ (chunk_aux batch_size fuel l).dropLast, g.length = batch_size := by
  intro fuel
  induction fuel with
  | zero =>
    intro l hl g hg
    have : l = [] := List.length_eq_zero.mp (by omega)
    subst this
    cases hg
  | succ fuel ih =>
    intro l hl g hg
    cases l with
    | nil => cases hg
    | cons a rest =>
      have hstep : chunk_aux batch_size (fuel + 1) (a :: rest) =
          (a :: rest).take batch_size ::
            chunk_aux batch_size fuel ((a :: rest).drop batch_size) := rfl
      rw [hstep] at hg
      cases hrest : chunk_aux batch_size fuel ((a :: rest).drop batch_size) with
      | nil =>
        rw [hrest] at hg
        cases hg
      | cons c cs =>
        rw [hrest] at hg
        rw [List.dropLast_cons₂] at hg
        rcases List.mem_cons.mp hg with hg | hg
        · subst hg
          have hdrop_ne : (a :: rest).drop batch_size ≠ [] := by
            intro hd
            rw [hd, chunk_aux_eq_nil] at hrest
            cases hrest
          have hlen : batch_size < (a :: rest).length := by
            by_contra hcon
            exact hdrop_ne (List.drop_eq_nil_of_le (by omega))
          rw [List.length_take]
          omega
        · rw [← hrest] at hg
          exact ih _ (by rw [List.length_drop]; simp only [List.length_cons] at hl ⊢; omega) g hg

/-- Claim C4: for all `n_items ≥ 0` and `batch_size ≥ 1`, with or without
shuffling, the batch partitioner produces `ceil(n_items / batch_size)` groups,
all of size `batch_size` except a possibly smaller (nonempty) final group, and
the concatenation of the groups is a permutation of `[0, n_items)` (every index
in exactly one group); `n_items = 0` produces zero groups. -/
theorem c4_partition (n_items batch_size : ℕ) (hb : 1 ≤ batch_size)
    (rng : RState) (shuffle : Bool) (groups : List (List ℕ))
    (hg : groups = (get_balanced_batches n_items batch_size rng shuffle).1) :
    groups.length = (n_items + batch_size - 1) / batch_size ∧
    (∀ g ∈ groups.dropLast, g.length = batch_size) ∧
    (∀ g ∈ groups, 1 ≤ g.length ∧ g.length ≤ batch_size) ∧
    groups.flatten.Perm (List.range n_items) ∧
    (n_items = 0 → groups = []) := by
  have hgidx : groups = chunk_aux batch_size
      (if shuffle then rng_permutation rng n_items else List.range n_items).length
      (if shuffle then rng_permutation rng n_items else List.range n_items) := hg
  set idx := if shuffle then rng_permutation rng n_items else List.range n_items with hidx
  have hlen : idx.length = n_items := by
    rw [hidx]
    cases shuffle <;> simp [rng_permutation]
  have hperm : idx.Perm (List.range n_items) := by
    rw [hidx]
    cases shuffle
    · simp
    · simp only [if_pos]
      exact List.rotate_perm _ _
  refine ⟨?_, ?_, ?_, ?_, ?_⟩
  · rw [hgidx, chunk_aux_length_eq batch_size hb idx.length idx le_rfl, hlen]
  · rw [hgidx]
    exact chunk_aux_dropLast_sizes batch_size hb idx.length idx le_rfl
  · rw [hgidx]
    exact chunk_aux_sizes batch_size hb idx.length idx le_rfl
  · rw [hgidx, chunk_aux_join batch_size hb idx.length idx le_rfl]
    exact hperm
  · intro h0
    have hidx0 : idx = [] := by
      apply List.length_eq_zero.mp
      omega
    rw [hgidx, hidx0, chunk_aux_eq_nil]

theorem c4_partition_witness :
    1 ≤ 3 ∧
      (let groups := (get_balanced_batches 7 3 (mk_random_state (2017, 6, 28)) true).1
       groups.length = (7 + 3 - 1) / 3 ∧
       (∀ g ∈ groups.dropLast, g.length = 3) ∧
       (∀ g ∈ groups, 1 ≤ g.length ∧ g.length ≤ 3) ∧
       groups.flatten.Perm (List.range 7) ∧
       (7 = 0 → groups = [])) :=
  ⟨by norm_num, c4_partition 7 3 (by norm_num) (mk_random_state (2017, 6, 28)) true _ rfl⟩

/-- Claim C5 (code bug): consuming the batch sequence of `get_batches` on a
dataset with zero trials raises instead of yielding zero batches. The empty
flattened block list hits the `ndim == 1` reshape (iterators.py lines 92-93,
`np.array([])` is 1-D), which fabricates a single empty row; the one resulting
group then fails to unpack its row into `(i_trial, start, stop)`, a
`ValueError`. Evaluated at `batch_size = 2`, `input_time_length = 5`,
`n_preds_per_input = 2`, the default seed, `shuffle = False`. -/
theorem c5_empty_dataset_raises :
    (get_batches (mk_crops_from_trials_iterator 2 5 2 (2017, 6, 28))
        ⟨[], []⟩ false).1 = Except.error BDError.unpack_error := rfl

/-- The precondition loop reports the first under-length trial. -/
theorem check_input_lens_finds (input_time_length : ℕ) :
    ∀ (lens : List ℕ) (i0 : ℕ), (∃ len ∈ lens, len < input_time_length) →
      ∃ (len j : ℕ),
        check_input_lens input_time_length lens i0
            = some (.input_too_small len (i0 + j) input_time_length) ∧
          len < input_time_length ∧ lens.get? j = some len := by
  intro lens
  induction lens with
  | nil =>
    rintro i0 ⟨len, h, -⟩
    cases h
  | cons a rest ih =>
    intro i0 hex
    by_cases ha : a < input_time_length
    · refine ⟨a, 0, ?_, ha, rfl⟩
      simp [check_input_lens, ha]
    · obtain ⟨len, hmem, hlt⟩ := hex
      have hmem' : len ∈ rest := by
        rcases List.mem_cons.mp hmem with h | h
        · subst h
          exact absurd hlt ha
        · exact h
      obtain ⟨len', j, hck, hlt', hget⟩ := ih (i0 + 1) ⟨len, hmem', hlt⟩
      refine ⟨len', j + 1, ?_, hlt', ?_⟩
      · simp only [check_input_lens, if_neg ha]
        rw [hck]
        have harith : i0 + 1 + j = i0 + (j + 1) := by omega
        rw [harith]
      · simpa using hget

/-- Claim C6: if any trial's raw time length is smaller than
`input_time_length`, `get_batches` raises the precondition error immediately
(no batch sequence is produced for that call), and the error identifies an
offending trial: its length, its index, and the required input length. -/
theorem c6_short_trial (it : CropsFromTrialsIterator) (d : Dataset) (shuffle : Bool)
    (t : List (List ℤ)) (ht : t ∈ d.X) (hshort : shape1 t < it.input_time_length) :
    ∃ (len j : ℕ) (tj : List (List ℤ)),
      (get_batches it d shuffle).1
          = Except.error (BDError.input_too_small len j it.input_time_length) ∧
      len < it.input_time_length ∧ d.X.get? j = some tj ∧ shape1 tj = len := by
  have hex : ∃ len ∈ d.X.map shape1, len < it.input_time_length :=
    ⟨shape1 t, List.mem_map_of_mem shape1 ht, hshort⟩
  obtain ⟨len, j, hck, hlt, hget⟩ :=
    check_input_lens_finds it.input_time_length (d.X.map shape1) 0 hex
  have hck' : check_input_lens it.input_time_length (d.X.map shape1) 0
      = some (.input_too_small len j it.input_time_length) := by
    simpa using hck
  rw [List.get?_map] at hget
  cases hXj : d.X.get? j with
  | none =>
    rw [hXj] at hget
    cases hget
  | some tj =>
    rw [hXj] at hget
    have htj : shape1 tj = len := by
      simpa using hget
    refine ⟨len, j, tj, ?_, hlt, hXj, htj⟩
    unfold get_batches
    rw [hck']

theorem c6_short_trial_witness :
    ([[0, 1, 2, 3]] ∈ (Dataset.mk [[[0, 1, 2, 3]]] [Label.scalar 0]).X) ∧
      shape1 [[0, 1, 2, 3]] <
        (mk_crops_from_trials_iterator 2 5 2 (2017, 6, 28)).input_time_length ∧
      (∃ (len j : ℕ) (tj : List (List ℤ)),
        (get_batches (mk_crops_from_trials_iterator 2 5 2 (2017, 6, 28))
            (Dataset.mk [[[0, 1, 2, 3]]] [Label.scalar 0]) false).1
            = Except.error (BDError.input_too_small len j
                (mk_crops_from_trials_iterator 2 5 2 (2017, 6, 28)).input_time_length) ∧
        len < (mk_crops_from_trials_iterator 2 5 2 (2017, 6, 28)).input_time_length ∧
        (Dataset.mk [[[0, 1, 2, 3]]] [Label.scalar 0]).X.get? j = some tj ∧
        shape1 tj = len) :=
  ⟨by decide, by decide,
    c6_short_trial (mk_crops_from_trials_iterator 2 5 2 (2017, 6, 28))
      (Dataset.mk [[[0, 1, 2, 3]]] [Label.scalar 0]) false
      [[0, 1, 2, 3]] (by decide) (by decide)⟩

/-- `get_batches` only ever updates the iterator's generator state; all
configuration fields are preserved. -/
theorem get_batches_snd (it : CropsFromTrialsIterator) (d : Dataset) (shuffle : Bool) :
    (get_batches it d shuffle).2 =
      { it with rng := (get_batches it d shuffle).2.rng } := by
  unfold get_batches
  split
  · rfl
  · dsimp only
    split
    · rfl
    · split
      · rfl
      · rfl

/-- Claim C7: two iterators constructed with the same seed and configuration
produce, on the same dataset with `shuffle = true`, identical batch sequences;
and calling `reset_rng` after a `get_batches` call and repeating the call
reproduces the previously produced batch sequence. -/
theorem c7_determinism (batch_size input_time_length n_preds_per_input : ℕ)
    (seed : ℕ × ℕ × ℕ) (d : Dataset) (it1 it2 : CropsFromTrialsIterator)
    (h1 : it1 = mk_crops_from_trials_iterator batch_size input_time_length
      n_preds_per_input seed)
    (h2 : it2 = mk_crops_from_trials_iterator batch_size input_time_length
      n_preds_per_input seed) :
    (get_batches it1 d true).1 = (get_batches it2 d true).1 ∧
    (get_batches (reset_rng (get_batches it1 d true).2) d true).1
        = (get_batches it1 d true).1 := by
  subst h1
  subst h2
  refine ⟨rfl, ?_⟩
  have hsnd := get_batches_snd (mk_crops_from_trials_iterator batch_size
    input_time_length n_preds_per_input seed) d true
  have hreset : reset_rng (get_batches (mk_crops_from_trials_iterator batch_size
      input_time_length n_preds_per_input seed) d true).2
      = mk_crops_from_trials_iterator batch_size input_time_length
          n_preds_per_input seed := by
    unfold reset_rng
    rw [hsnd]
    rfl
  rw [hreset]

theorem c7_determinism_witness :
    (mk_crops_from_trials_iterator 2 3 2 (2017, 6, 28)
        = mk_crops_from_trials_iterator 2 3 2 (2017, 6, 28)) ∧
      ((get_batches (mk_crops_from_trials_iterator 2 3 2 (2017, 6, 28))
          (Dataset.mk [[[0, 1, 2, 3, 4, 5, 6]]] [Label.scalar 1]) true).1
        = (get_batches (mk_crops_from_trials_iterator 2 3 2 (2017, 6, 28))
          (Dataset.mk [[[0, 1, 2, 3, 4, 5, 6]]] [Label.scalar 1]) true).1 ∧
      (get_batches (reset_rng (get_batches (mk_crops_from_trials_iterator 2 3 2 (2017, 6, 28))
          (Dataset.mk [[[0, 1, 2, 3, 4, 5, 6]]] [Label.scalar 1]) true).2)
          (Dataset.mk [[[0, 1, 2, 3, 4, 5, 6]]] [Label.scalar 1]) true).1
        = (get_batches (mk_crops_from_trials_iterator 2 3 2 (2017, 6, 28))
          (Dataset.mk [[[0, 1, 2, 3, 4, 5, 6]]] [Label.scalar 1]) true).1) :=
  ⟨rfl, c7_determinism 2 3 2 (2017, 6, 28)
    (Dataset.mk [[[0, 1, 2, 3, 4, 5, 6]]] [Label.scalar 1]) _ _ rfl rfl⟩
